import Mathlib

/-!
Verification of the k-out-of-n maintenance system (src/app.py).

The core of the repository is the function `compute_uptime_fraction`
(a product-form stationary-distribution computation for a finite
birth-death chain on states 0..n), the cost function `total_cost`,
and the grid-search optimizer `find_optimal_config`.

The Python floats are modelled by exact rationals (ℚ); the integer
parameters by ℕ.  The Python expression `n - k` on ints is modelled on ℤ
where the sign matters (`range(n - k + 1)` is empty for a negative bound,
which `Int.toNat` reproduces exactly).
-/

namespace KOutOfN

/-- Failure (birth) transition rate out of state `i` (number of failed
components) for `i = 0 .. n-1`, from the loop building `failure_rates`
in `compute_uptime_fraction`: warm standby gives `(n - i) * failure_rate`,
cold standby gives `k * failure_rate` when `i <= n - k` and `0` otherwise
(the comparison is on Python ints, hence on ℤ). -/
def birthRate (n k : ℕ) (failure_rate : ℚ) (warm_standby : Bool) (i : ℕ) : ℚ :=
  if warm_standby then ((n : ℚ) - (i : ℚ)) * failure_rate
  else if (i : ℤ) ≤ (n : ℤ) - (k : ℤ) then (k : ℚ) * failure_rate
  else 0

/-- Repair (death) transition rate out of state `i` for `i = 1 .. n`:
`repair_rates[i-1] = min(i, r) * repair_rate` in the source. -/
def deathRate (r : ℕ) (repair_rate : ℚ) (i : ℕ) : ℚ :=
  ((min i r : ℕ) : ℚ) * repair_rate

/-- The ratio multiplied onto the running product at loop index `i`
(`i = 1 .. n`): `failure_rates[i-1] / repair_rates[i-1]` when
`repair_rates[i-1] > 0`, else `0`. -/
def ratio (n k r : ℕ) (failure_rate repair_rate : ℚ) (warm_standby : Bool)
    (i : ℕ) : ℚ :=
  if 0 < deathRate r repair_rate i then
    birthRate n k failure_rate warm_standby (i - 1) / deathRate r repair_rate i
  else 0

/-- Source `product_terms[i]`: the unnormalized weight of state `i`.
`product_terms = [1.0]` and each further entry is the previous entry
times the `ratio` of that loop index. -/
def productTerm (n k r : ℕ) (failure_rate repair_rate : ℚ)
    (warm_standby : Bool) : ℕ → ℚ
  | 0 => 1
  | i + 1 =>
    productTerm n k r failure_rate repair_rate warm_standby i *
      ratio n k r failure_rate repair_rate warm_standby (i + 1)

/-- Source `denominator = sum(product_terms)`, the sum of the `n + 1` weights. -/
def denominator (n k r : ℕ) (failure_rate repair_rate : ℚ)
    (warm_standby : Bool) : ℚ :=
  ((List.range (n + 1)).map
    (productTerm n k r failure_rate repair_rate warm_standby)).sum

/-- Source `pi_0 = 1 / denominator`. -/
def pi_0 (n k r : ℕ) (failure_rate repair_rate : ℚ)
    (warm_standby : Bool) : ℚ :=
  1 / denominator n k r failure_rate repair_rate warm_standby

/-- Source `pi = [pi_0 * term for term in product_terms]`: the stationary
probability of state `i`. -/
def piProb (n k r : ℕ) (failure_rate repair_rate : ℚ) (warm_standby : Bool)
    (i : ℕ) : ℚ :=
  pi_0 n k r failure_rate repair_rate warm_standby *
    productTerm n k r failure_rate repair_rate warm_standby i

/-- The engine `compute_uptime_fraction(n, k, r, failure_rate, repair_rate,
warm_standby)`: `max_failures_allowed = n - k` (on ℤ, as in Python) and the
result is `sum(pi[i] for i in range(max_failures_allowed + 1))`. -/
def compute_uptime_fraction (n k r : ℕ) (failure_rate repair_rate : ℚ)
    (warm_standby : Bool) : ℚ :=
  ((List.range ((n : ℤ) - (k : ℤ) + 1).toNat).map
    (piProb n k r failure_rate repair_rate warm_standby)).sum

/-- Source `total_cost`: invokes the engine and charges components, repairmen and
expected downtime linearly. -/
def total_cost (n k r : ℕ) (failure_rate repair_rate : ℚ)
    (warm_standby : Bool) (component_cost repairman_cost downtime_cost : ℚ) :
    ℚ :=
  (n : ℚ) * component_cost + (r : ℚ) * repairman_cost +
    (1 - compute_uptime_fraction n k r failure_rate repair_rate warm_standby) *
      downtime_cost

/-- The candidate grid scanned by `find_optimal_config`:
`for n_b in range(k, 100): for r_b in range(1, 15)`, in scan order. -/
def configGrid (k : ℕ) : List (ℕ × ℕ) :=
  (List.range' k (100 - k)).flatMap fun n_b =>
    (List.range' 1 14).map fun r_b => (n_b, r_b)

/-- One loop iteration of `find_optimal_config`, acting on the running
best candidate: `if cost < best_cost:` replace, starting from
`best_config = None, best_cost = inf` (against `inf` every finite cost
wins, which the `none` case reproduces). -/
def stepBest (f : ℕ × ℕ → ℚ) (best : Option (ℕ × ℕ × ℚ)) (p : ℕ × ℕ) :
    Option (ℕ × ℕ × ℚ) :=
  match best with
  | none => some (p.1, p.2, f p)
  | some (bn, br, bc) =>
    if f p < bc then some (p.1, p.2, f p) else some (bn, br, bc)

/-- Source `find_optimal_config`: scans the grid in increasing `n_b`, then
increasing `r_b`, keeping the strictly cheapest candidate seen so far;
returns `None` when the grid is empty. -/
def find_optimal_config (failure_rate repair_rate : ℚ) (warm_standby : Bool)
    (component_cost repairman_cost downtime_cost : ℚ) (k : ℕ) :
    Option (ℕ × ℕ × ℚ) :=
  (configGrid k).foldl
    (stepBest fun p =>
      total_cost p.1 k p.2 failure_rate repair_rate warm_standby
        component_cost repairman_cost downtime_cost)
    none

/-! ### Basic facts about the weights and the normalization -/

/-- Birth rates are nonnegative for nonnegative failure rate, on the
states `0 .. n` actually indexed by the chain. -/
lemma birthRate_nonneg {n k : ℕ} {lam : ℚ} (warm : Bool) {i : ℕ}
    (hlam : 0 ≤ lam) (hin : i ≤ n) : 0 ≤ birthRate n k lam warm i := by
  unfold birthRate
  rcases warm with _ | _
  · simp only [Bool.false_eq_true, if_false]
    split
    · exact mul_nonneg (by positivity) hlam
    · exact le_refl 0
  · simp only [if_true]
    have : (i : ℚ) ≤ (n : ℚ) := by exact_mod_cast hin
    exact mul_nonneg (by linarith) hlam

/-- Each ratio appended to the running product is nonnegative. -/
lemma ratio_nonneg {n k r : ℕ} {lam mu : ℚ} (warm : Bool) {i : ℕ}
    (hlam : 0 ≤ lam) (hin : i - 1 ≤ n) :
    0 ≤ ratio n k r lam mu warm i := by
  unfold ratio
  split
  · exact div_nonneg (birthRate_nonneg warm hlam hin) (le_of_lt (by assumption))
  · exact le_refl 0

/-- Every unnormalized weight `product_terms[i]` with `i ≤ n` is
nonnegative when the failure rate is nonnegative. -/
lemma productTerm_nonneg {n k r : ℕ} {lam mu : ℚ} (warm : Bool)
    (hlam : 0 ≤ lam) :
    ∀ i, i ≤ n → 0 ≤ productTerm n k r lam mu warm i := by
  intro i
  induction i with
  | zero => intro _; norm_num [productTerm]
  | succ j ih =>
    intro hj
    have hjn : j ≤ n := Nat.le_of_succ_le hj
    exact mul_nonneg (ih hjn) (ratio_nonneg warm hlam (by omega))

/-- Bridge from the source's list sums to `Finset.range` sums. -/
lemma list_sum_range (f : ℕ → ℚ) (n : ℕ) :
    ((List.range n).map f).sum = ∑ i ∈ Finset.range n, f i := by
  induction n with
  | zero => simp
  | succ m ih =>
    rw [List.range_succ, List.map_append, List.sum_append,
      Finset.sum_range_succ, ih]
    simp

/-- The normalization denominator is at least `1`: the weight of state 0
is exactly `1` and all other weights are nonnegative. -/
lemma one_le_denominator {n k r : ℕ} {lam mu : ℚ} (warm : Bool)
    (hlam : 0 ≤ lam) : 1 ≤ denominator n k r lam mu warm := by
  unfold denominator
  rw [list_sum_range]
  have h0 : (0 : ℕ) ∈ Finset.range (n + 1) := by simp
  have := Finset.single_le_sum
    (f := productTerm n k r lam mu warm)
    (fun i hi => productTerm_nonneg warm hlam i
      (Nat.lt_succ_iff.mp (Finset.mem_range.mp hi))) h0
  simpa [productTerm] using this

lemma denominator_pos {n k r : ℕ} {lam mu : ℚ} (warm : Bool)
    (hlam : 0 ≤ lam) : 0 < denominator n k r lam mu warm :=
  lt_of_lt_of_le one_pos (one_le_denominator warm hlam)

/-- The full stationary vector sums to exactly 1. -/
lemma sum_piProb_eq_one {n k r : ℕ} {lam mu : ℚ} (warm : Bool)
    (hlam : 0 ≤ lam) :
    ((List.range (n + 1)).map (piProb n k r lam mu warm)).sum = 1 := by
  have hD : denominator n k r lam mu warm ≠ 0 :=
    ne_of_gt (denominator_pos warm hlam)
  rw [list_sum_range]
  unfold piProb pi_0
  rw [← Finset.mul_sum, ← list_sum_range]
  rw [show ((List.range (n + 1)).map
      (productTerm n k r lam mu warm)).sum = denominator n k r lam mu warm
    from rfl]
  field_simp

/-- Every returned stationary probability is nonnegative. -/
lemma piProb_nonneg {n k r : ℕ} {lam mu : ℚ} (warm : Bool) (hlam : 0 ≤ lam)
    {i : ℕ} (hi : i ≤ n) : 0 ≤ piProb n k r lam mu warm i := by
  unfold piProb pi_0
  have hD : 0 < denominator n k r lam mu warm := denominator_pos warm hlam
  exact mul_nonneg (by positivity) (productTerm_nonneg warm hlam i hi)

/-- With `k ≤ n`, the Python bound `n - k + 1` is the same on ℤ and ℕ,
so the engine output is the sum of `pi[0 .. n-k]`. -/
lemma uptime_eq_sum_range {n k r : ℕ} {lam mu : ℚ} (warm : Bool)
    (hkn : k ≤ n) :
    compute_uptime_fraction n k r lam mu warm =
      ∑ i ∈ Finset.range (n - k + 1), piProb n k r lam mu warm i := by
  unfold compute_uptime_fraction
  rw [show ((n : ℤ) - (k : ℤ) + 1).toNat = n - k + 1 by omega, list_sum_range]

example : compute_uptime_fraction 1 1 1 (1/10) 1 true = 10/11 := by
  norm_num [compute_uptime_fraction, piProb, pi_0, denominator, productTerm,
    ratio, birthRate, deathRate, List.range_succ]

example : birthRate 5 3 (1/10) true 0 = 1/2 := by
  norm_num [birthRate]

example : birthRate 5 3 (1/10) false 0 = 3/10 := by
  norm_num [birthRate]

/-! ### Claim theorems -/

/-- C10: for every input with `failure_rate ≥ 0` and `repair_rate ≥ 0`,
every weight in the product-term sequence indexed by the chain is
nonnegative and the first weight is `1`, so the normalization denominator
is at least `1` (in particular nonzero) and every returned stationary
probability is nonnegative. -/
theorem weights_nonneg_denominator_ge_one (n k r : ℕ) (lam mu : ℚ)
    (warm : Bool) (hlam : 0 ≤ lam) (hmu : 0 ≤ mu) :
    productTerm n k r lam mu warm 0 = 1 ∧
    (∀ i, i ≤ n → 0 ≤ productTerm n k r lam mu warm i) ∧
    1 ≤ denominator n k r lam mu warm ∧
    (∀ i, i ≤ n → 0 ≤ piProb n k r lam mu warm i) := by
  exact ⟨rfl, productTerm_nonneg warm hlam, one_le_denominator warm hlam,
    fun i hi => piProb_nonneg warm hlam hi⟩

/-- Closed instance of C10 at `n = 2, k = 1, r = 1, λ = 1/10, μ = 1`,
warm standby. -/
theorem weights_nonneg_denominator_ge_one_witness :
    (0 : ℚ) ≤ 1/10 ∧ (0 : ℚ) ≤ 1 ∧
    (productTerm 2 1 1 (1/10) 1 true 0 = 1 ∧
     (∀ i, i ≤ 2 → 0 ≤ productTerm 2 1 1 (1/10) 1 true i) ∧
     1 ≤ denominator 2 1 1 (1/10) 1 true ∧
     (∀ i, i ≤ 2 → 0 ≤ piProb 2 1 1 (1/10) 1 true i)) :=
  ⟨by norm_num, by norm_num,
    weights_nonneg_denominator_ge_one 2 1 1 (1/10) 1 true (by norm_num)
      (by norm_num)⟩

/-- C1: for every valid input the engine computes the stationary
distribution by the product-form recurrence (`w 0 = 1`, and
`w (i+1) = w i * (birthRate i / deathRate (i+1))` when the death rate at
`i+1` is positive, else `w (i+1) = w i * 0`), and the returned
distribution `pi[0..n]` sums to exactly `1` (the ℚ model computes the
float algorithm exactly). -/
theorem product_form_recurrence_and_normalization (n k r : ℕ) (lam mu : ℚ)
    (warm : Bool) (hn : 1 ≤ n) (hk : 1 ≤ k) (hkn : k ≤ n) (hr : 1 ≤ r)
    (hlam : 0 ≤ lam) (hmu : 0 ≤ mu) :
    productTerm n k r lam mu warm 0 = 1 ∧
    (∀ i, i < n →
      productTerm n k r lam mu warm (i + 1) =
        if 0 < deathRate r mu (i + 1) then
          productTerm n k r lam mu warm i *
            (birthRate n k lam warm i / deathRate r mu (i + 1))
        else productTerm n k r lam mu warm i * 0) ∧
    ((List.range (n + 1)).map (piProb n k r lam mu warm)).sum = 1 := by
  refine ⟨rfl, fun i _ => ?_, sum_piProb_eq_one warm hlam⟩
  show productTerm n k r lam mu warm i * ratio n k r lam mu warm (i + 1) = _
  unfold ratio
  split <;> simp

/-- Closed instance of C1 at `n = 2, k = 1, r = 1, λ = 1/10, μ = 1`,
warm standby. -/
theorem product_form_recurrence_and_normalization_witness :
    (1 : ℕ) ≤ 2 ∧ (1 : ℕ) ≤ 1 ∧ (1 : ℕ) ≤ 2 ∧ (0 : ℚ) ≤ 1/10 ∧ (0 : ℚ) ≤ 1 ∧
    (productTerm 2 1 1 (1/10) 1 true 0 = 1 ∧
     (∀ i, i < 2 →
       productTerm 2 1 1 (1/10) 1 true (i + 1) =
         if 0 < deathRate 1 1 (i + 1) then
           productTerm 2 1 1 (1/10) 1 true i *
             (birthRate 2 1 (1/10) true i / deathRate 1 1 (i + 1))
         else productTerm 2 1 1 (1/10) 1 true i * 0) ∧
     ((List.range 3).map (piProb 2 1 1 (1/10) 1 true)).sum = 1) :=
  ⟨by norm_num, by norm_num, by norm_num, by norm_num, by norm_num,
    product_form_recurrence_and_normalization 2 1 1 (1/10) 1 true
      (by norm_num) (by norm_num) (by norm_num) (by norm_num) (by norm_num)
      (by norm_num)⟩

/-- C2: for every valid input the returned uptime fraction is the sum of
`pi[i]` for `i` from `0` to `n - k` inclusive; in particular for `k = n`
it equals `pi[0]` exactly. -/
theorem uptime_is_sum_of_up_states (n k r : ℕ) (lam mu : ℚ) (warm : Bool)
    (hn : 1 ≤ n) (hk : 1 ≤ k) (hkn : k ≤ n) (hr : 1 ≤ r) (hlam : 0 ≤ lam)
    (hmu : 0 ≤ mu) :
    compute_uptime_fraction n k r lam mu warm =
      ((List.range (n - k + 1)).map (piProb n k r lam mu warm)).sum ∧
    (k = n →
      compute_uptime_fraction n k r lam mu warm =
        piProb n k r lam mu warm 0) := by
  constructor
  · unfold compute_uptime_fraction
    rw [show ((n : ℤ) - (k : ℤ) + 1).toNat = n - k + 1 by omega]
  · intro hkeq
    unfold compute_uptime_fraction
    rw [show ((n : ℤ) - (k : ℤ) + 1).toNat = 1 by omega]
    simp [List.range_succ]

/-- Closed instance of C2 at `n = 1, k = 1, r = 1, λ = 1/10, μ = 1`. -/
theorem uptime_is_sum_of_up_states_witness :
    (1 : ℕ) ≤ 1 ∧ (0 : ℚ) ≤ 1/10 ∧ (0 : ℚ) ≤ 1 ∧
    (compute_uptime_fraction 1 1 1 (1/10) 1 true =
       ((List.range (1 - 1 + 1)).map (piProb 1 1 1 (1/10) 1 true)).sum ∧
     (1 = 1 →
       compute_uptime_fraction 1 1 1 (1/10) 1 true =
         piProb 1 1 1 (1/10) 1 true 0)) :=
  ⟨le_refl 1, by norm_num, by norm_num,
    uptime_is_sum_of_up_states 1 1 1 (1/10) 1 true (le_refl 1) (le_refl 1)
      (le_refl 1) (le_refl 1) (by norm_num) (by norm_num)⟩

/-- C5: the derived chain rates.  Warm standby: `birthRate i = (n - i) λ`
on states `0 .. n-1`; cold standby: `k λ` while `i ≤ n - k` (comparison on
ℤ, as the Python ints compare) and `0` once `i` exceeds `n - k`;
`deathRate i = min(i, r) μ` on states `1 .. n`.  Concretely at `i = 0`
with `n = 5, k = 3, λ = 1/10`: warm gives `1/2` and cold gives `3/10`. -/
theorem chain_rates_formulas (n k r : ℕ) (lam mu : ℚ) :
    (∀ i, i < n → birthRate n k lam true i = ((n : ℚ) - (i : ℚ)) * lam) ∧
    (∀ i : ℕ, (i : ℤ) ≤ (n : ℤ) - (k : ℤ) →
      birthRate n k lam false i = (k : ℚ) * lam) ∧
    (∀ i : ℕ, (n : ℤ) - (k : ℤ) < (i : ℤ) → birthRate n k lam false i = 0) ∧
    (∀ i, 1 ≤ i → i ≤ n → deathRate r mu i = ((min i r : ℕ) : ℚ) * mu) ∧
    birthRate 5 3 (1/10) true 0 = 1/2 ∧
    birthRate 5 3 (1/10) false 0 = 3/10 := by
  refine ⟨fun i _ => rfl, fun i hi => ?_, fun i hi => ?_, fun i _ _ => rfl,
    by norm_num [birthRate], by norm_num [birthRate]⟩
  · simp [birthRate, hi]
  · simp [birthRate, not_le.mpr hi]

/-- Closed instance of C5: the warm formula at `n = 5, i = 2` and the
death-rate formula at `i = 1`, via the general theorem. -/
theorem chain_rates_formulas_witness :
    birthRate 5 3 (1/10) true 2 = ((5 : ℚ) - (2 : ℚ)) * (1/10) ∧
    deathRate 2 1 1 = ((min 1 2 : ℕ) : ℚ) * 1 :=
  ⟨(chain_rates_formulas 5 3 2 (1/10) 1).1 2 (by norm_num),
    (chain_rates_formulas 5 3 2 (1/10) 1).2.2.2.1 1 (le_refl 1)
      (by norm_num)⟩

/-- C7: the closed-form case `n = 1, k = 1, r = 1, λ = 1/10, μ = 1`, in
both standby modes: `birthRate 0 = 1/10`, `deathRate 1 = 1`,
`pi = [10/11, 1/11]` and `uptimeFraction = 10/11` (`= 1/1.1`). -/
theorem closed_form_case_n1 :
    birthRate 1 1 (1/10) true 0 = 1/10 ∧
    birthRate 1 1 (1/10) false 0 = 1/10 ∧
    deathRate 1 1 1 = 1 ∧
    (∀ warm : Bool,
      piProb 1 1 1 (1/10) 1 warm 0 = 10/11 ∧
      piProb 1 1 1 (1/10) 1 warm 1 = 1/11 ∧
      compute_uptime_fraction 1 1 1 (1/10) 1 warm = 10/11) := by
  refine ⟨by norm_num [birthRate], by norm_num [birthRate],
    by norm_num [deathRate], fun warm => ?_⟩
  rcases warm with _ | _ <;>
    refine ⟨?_, ?_, ?_⟩ <;>
    norm_num [compute_uptime_fraction, piProb, pi_0, denominator,
      productTerm, ratio, birthRate, deathRate, List.range_succ]

/-- C8: for every valid input the returned uptime fraction lies in
`[0, 1]` (the ℚ model shows the denominator is at least `1`, so this in
fact holds with no non-degeneracy assumption beyond the valid ranges). -/
theorem uptime_in_unit_interval (n k r : ℕ) (lam mu : ℚ) (warm : Bool)
    (hk : 1 ≤ k) (hkn : k ≤ n) (hr : 1 ≤ r) (hlam : 0 ≤ lam)
    (hmu : 0 ≤ mu) :
    0 ≤ compute_uptime_fraction n k r lam mu warm ∧
    compute_uptime_fraction n k r lam mu warm ≤ 1 := by
  have hD : 0 < denominator n k r lam mu warm := denominator_pos warm hlam
  rw [uptime_eq_sum_range warm hkn]
  constructor
  · exact Finset.sum_nonneg fun i hi =>
      piProb_nonneg warm hlam (by have := Finset.mem_range.mp hi; omega)
  · unfold piProb
    rw [← Finset.mul_sum]
    have hsub : ∑ i ∈ Finset.range (n - k + 1),
        productTerm n k r lam mu warm i ≤ denominator n k r lam mu warm := by
      unfold denominator
      rw [list_sum_range]
      refine Finset.sum_le_sum_of_subset_of_nonneg
        (Finset.range_subset.mpr (by omega)) fun i hi _ =>
          productTerm_nonneg warm hlam i
            (by have := Finset.mem_range.mp hi; omega)
    calc pi_0 n k r lam mu warm *
          ∑ i ∈ Finset.range (n - k + 1), productTerm n k r lam mu warm i ≤
        pi_0 n k r lam mu warm * denominator n k r lam mu warm :=
          mul_le_mul_of_nonneg_left hsub (by unfold pi_0; positivity)
      _ = 1 := by unfold pi_0; field_simp

/-- Closed instance of C8 at `n = 2, k = 1, r = 1, λ = 1/10, μ = 1`,
cold standby. -/
theorem uptime_in_unit_interval_witness :
    (1 : ℕ) ≤ 2 ∧ (0 : ℚ) ≤ 1/10 ∧
    (0 ≤ compute_uptime_fraction 2 1 1 (1/10) 1 false ∧
     compute_uptime_fraction 2 1 1 (1/10) 1 false ≤ 1) :=
  ⟨by norm_num, by norm_num,
    uptime_in_unit_interval 2 1 1 (1/10) 1 false (le_refl 1) (by norm_num)
      (le_refl 1) (by norm_num) (by norm_num)⟩

/-- C3, counterexample: at `n = 1, k = 1, r = 1, λ = 1/10 > 0, μ = 0` the
engine does not fail: every ratio takes the `else 0` branch, the
normalization denominator is `1` (not zero), and the engine returns the
finite value `1`.  No `DegenerateChain` condition exists anywhere in the
code. -/
theorem mu_zero_returns_finite_value :
    denominator 1 1 1 (1/10) 0 true = 1 ∧
    compute_uptime_fraction 1 1 1 (1/10) 0 true = 1 := by
  constructor <;>
    norm_num [compute_uptime_fraction, piProb, pi_0, denominator,
      productTerm, ratio, birthRate, deathRate, List.range_succ]

/-- C3, amended: for every input with `μ = 0` (and `k ≤ n`) each
`repair_rates` entry is `0`, so every ratio takes the `else 0` branch,
the denominator equals `1` — never zero — and the engine returns
`uptimeFraction = 1` without signaling any error condition. -/
theorem mu_zero_denominator_one_uptime_one (n k r : ℕ) (lam : ℚ)
    (warm : Bool) (hk : 1 ≤ k) (hkn : k ≤ n) :
    denominator n k r lam 0 warm = 1 ∧
    compute_uptime_fraction n k r lam 0 warm = 1 := by
  have hzero : ∀ i, productTerm n k r lam 0 warm (i + 1) = 0 := by
    intro i
    simp [productTerm, ratio, deathRate]
  have hden : denominator n k r lam 0 warm = 1 := by
    unfold denominator
    rw [list_sum_range, Finset.sum_range_succ']
    simp only [hzero, Finset.sum_const_zero, zero_add]
    rfl
  refine ⟨hden, ?_⟩
  rw [uptime_eq_sum_range warm hkn, Finset.sum_range_succ']
  simp only [piProb, hzero, mul_zero, Finset.sum_const_zero, zero_add]
  simp [pi_0, hden, productTerm]

/-- Closed instance of the amended C3 at `n = 2, k = 1, r = 1,
λ = 1/10, μ = 0`. -/
theorem mu_zero_denominator_one_uptime_one_witness :
    (1 : ℕ) ≤ 2 ∧
    (denominator 2 1 1 (1/10) 0 true = 1 ∧
     compute_uptime_fraction 2 1 1 (1/10) 0 true = 1) :=
  ⟨by norm_num,
    mu_zero_denominator_one_uptime_one 2 1 1 (1/10) true (le_refl 1)
      (by norm_num)⟩

/-- C9, counterexample: at `k = 100` (above the grid bound `N_MAX = 99`)
the candidate grid `range(100, 100) × range(1, 15)` is empty and
`find_optimal_config` returns the Python sentinel `None` — it does not
signal a distinct `NoFeasibleConfiguration` condition, which does not
exist anywhere in the code. -/
theorem k_above_grid_returns_none_concrete :
    find_optimal_config (1/10) 1 true 1 5 100 100 = none := by
  rfl

/-- C9, amended: whenever `k > 99` (`k` exceeds the code's `N_MAX = 99`,
since `range(k, 100)` is empty) the optimizer returns `None` — a sentinel,
not a `(n, r, cost)` tuple and not a cost of zero or infinity; the caller
distinguishes this outcome by the falsiness of `None`. -/
theorem k_above_grid_returns_none (lam mu : ℚ) (warm : Bool)
    (cc rc dc : ℚ) (k : ℕ) (hk : 100 ≤ k) :
    find_optimal_config lam mu warm cc rc dc k = none := by
  unfold find_optimal_config configGrid
  rw [show 100 - k = 0 by omega]
  rfl

/-- Closed instance of the amended C9 at `k = 101`. -/
theorem k_above_grid_returns_none_witness :
    (100 : ℕ) ≤ 101 ∧
    find_optimal_config (1/10) 1 false 1 5 100 101 = none :=
  ⟨by norm_num,
    k_above_grid_returns_none (1/10) 1 false 1 5 100 101 (by norm_num)⟩

/-! ### The optimizer's scan loop -/

/-- Invariant of the scan loop of `find_optimal_config`: starting from a
current best candidate `b`, the fold returns a candidate whose cost is a
lower bound for the current best cost and for every remaining cell, and
which is either `b` itself or the first remaining cell that strictly
beats `b` and everything scanned before it. -/
lemma foldl_stepBest_some (f : ℕ × ℕ → ℚ) :
    ∀ (l : List (ℕ × ℕ)) (b : ℕ × ℕ × ℚ),
      ∃ q : ℕ × ℕ × ℚ,
        List.foldl (stepBest f) (some b) l = some q ∧
        q.2.2 ≤ b.2.2 ∧ (∀ p ∈ l, q.2.2 ≤ f p) ∧
        (q = b ∨
          ∃ l1 l2, l = l1 ++ (q.1, q.2.1) :: l2 ∧
            q.2.2 = f (q.1, q.2.1) ∧ q.2.2 < b.2.2 ∧
            ∀ p ∈ l1, q.2.2 < f p) := by
  intro l
  induction l with
  | nil => exact fun b => ⟨b, rfl, le_refl _, by simp, Or.inl rfl⟩
  | cons a t ih =>
    intro b
    by_cases hfa : f a < b.2.2
    · have hstep : stepBest f (some b) a = some (a.1, a.2, f a) := by
        rcases b with ⟨bn, br, bc⟩
        simp only [stepBest]
        rw [if_pos hfa]
      obtain ⟨q, hfold, hle, hmin, hcase⟩ := ih (a.1, a.2, f a)
      refine ⟨q, by rw [List.foldl_cons, hstep]; exact hfold,
        le_trans hle (le_of_lt hfa), ?_, ?_⟩
      · intro p hp
        rcases List.mem_cons.mp hp with h | h
        · rw [h]; exact hle
        · exact hmin p h
      · right
        rcases hcase with heq | ⟨l1, l2, hsplit, hcost, hlt, hall⟩
        · refine ⟨[], t, ?_, ?_, ?_, by simp⟩
          · rw [heq]
            rfl
          · rw [heq]
          · rw [heq]; exact hfa
        · refine ⟨a :: l1, l2, by rw [List.cons_append, ← hsplit], hcost,
            lt_trans hlt hfa, ?_⟩
          intro p hp
          rcases List.mem_cons.mp hp with h | h
          · rw [h]; exact hlt
          · exact hall p h
    · have hstep : stepBest f (some b) a = some b := by
        rcases b with ⟨bn, br, bc⟩
        simp only [stepBest]
        rw [if_neg hfa]
      obtain ⟨q, hfold, hle, hmin, hcase⟩ := ih b
      refine ⟨q, by rw [List.foldl_cons, hstep]; exact hfold, hle, ?_, ?_⟩
      · intro p hp
        rcases List.mem_cons.mp hp with h | h
        · rw [h]; exact le_trans hle (not_lt.mp hfa)
        · exact hmin p h
      · rcases hcase with heq | ⟨l1, l2, hsplit, hcost, hlt, hall⟩
        · exact Or.inl heq
        · right
          refine ⟨a :: l1, l2, by rw [List.cons_append, ← hsplit], hcost,
            hlt, ?_⟩
          intro p hp
          rcases List.mem_cons.mp hp with h | h
          · rw [h]; exact lt_of_lt_of_le hlt (not_lt.mp hfa)
          · exact hall p h

/-- Scanning a nonempty cell list from the initial `None` best returns
the first cell attaining the minimal cost over the list. -/
lemma foldl_stepBest_none (f : ℕ × ℕ → ℚ) (l : List (ℕ × ℕ))
    (hne : l ≠ []) :
    ∃ q : ℕ × ℕ × ℚ,
      List.foldl (stepBest f) none l = some q ∧
      q.2.2 = f (q.1, q.2.1) ∧
      (∀ p ∈ l, q.2.2 ≤ f p) ∧
      ∃ l1 l2, l = l1 ++ (q.1, q.2.1) :: l2 ∧ ∀ p ∈ l1, q.2.2 < f p := by
  rcases l with _ | ⟨a, t⟩
  · exact absurd rfl hne
  obtain ⟨q, hfold, hle, hmin, hcase⟩ := foldl_stepBest_some f t (a.1, a.2, f a)
  have hfold2 : List.foldl (stepBest f) none (a :: t) = some q := by
    rw [List.foldl_cons]
    exact hfold
  rcases hcase with heq | ⟨l1, l2, hsplit, hcost, hlt, hall⟩
  · refine ⟨q, hfold2, by rw [heq], ?_, [], t, ?_, by simp⟩
    · intro p hp
      rcases List.mem_cons.mp hp with h | h
      · rw [h]; exact hle
      · exact hmin p h
    · rw [heq]
      rfl
  · refine ⟨q, hfold2, hcost, ?_, a :: l1, l2,
      by rw [List.cons_append, ← hsplit], ?_⟩
    · intro p hp
      rcases List.mem_cons.mp hp with h | h
      · rw [h]; exact le_of_lt hlt
      · exact hmin p h
    · intro p hp
      rcases List.mem_cons.mp hp with h | h
      · rw [h]; exact hlt
      · exact hall p h

/-- C4: whenever `k` lies inside the grid (`1 ≤ k ≤ 99`),
`find_optimal_config` returns a candidate `(bn, br, bc)` from the grid
`n ∈ k..99, r ∈ 1..14` whose cost `bc` is its own `total_cost`, is a
lower bound for the `total_cost` of every grid cell (the brute-force
minimum over the same grid), and which strictly beats every cell that
precedes it in scan order (increasing `n`, then increasing `r`), i.e.
the first-encountered minimizer is returned and later ties are not
adopted. -/
theorem find_optimal_config_is_first_grid_argmin (lam mu : ℚ)
    (warm : Bool) (cc rc dc : ℚ) (k : ℕ) (hk : 1 ≤ k) (hk99 : k ≤ 99) :
    ∃ bn br bc,
      find_optimal_config lam mu warm cc rc dc k = some (bn, br, bc) ∧
      (bn, br) ∈ configGrid k ∧
      bc = total_cost bn k br lam mu warm cc rc dc ∧
      (∀ p ∈ configGrid k,
        bc ≤ total_cost p.1 k p.2 lam mu warm cc rc dc) ∧
      ∃ l1 l2, configGrid k = l1 ++ (bn, br) :: l2 ∧
        ∀ p ∈ l1, bc < total_cost p.1 k p.2 lam mu warm cc rc dc := by
  have hne : configGrid k ≠ [] := by
    have hmem : ((k, 1) : ℕ × ℕ) ∈ configGrid k := by
      unfold configGrid
      refine List.mem_flatMap.mpr ⟨k, ?_, ?_⟩
      · exact List.mem_range'_1.mpr ⟨le_refl k, by omega⟩
      · exact List.mem_map.mpr ⟨1, List.mem_range'_1.mpr ⟨le_refl 1, by omega⟩,
          rfl⟩
    exact List.ne_nil_of_mem hmem
  obtain ⟨q, hfold, hcost, hmin, l1, l2, hsplit, hall⟩ :=
    foldl_stepBest_none
      (fun p => total_cost p.1 k p.2 lam mu warm cc rc dc) (configGrid k) hne
  refine ⟨q.1, q.2.1, q.2.2, hfold, ?_, hcost, hmin, l1, l2, hsplit, hall⟩
  rw [hsplit]
  exact List.mem_append_right _ (List.mem_cons_self _ _)

/-- Closed instance of C4 at `k = 99` (the hypotheses are discharged
concretely; the selected configuration exists and is the first grid
argmin). -/
theorem find_optimal_config_is_first_grid_argmin_witness :
    (1 : ℕ) ≤ 99 ∧
    ∃ bn br bc,
      find_optimal_config (1/10) 1 true 1 5 100 99 = some (bn, br, bc) ∧
      (bn, br) ∈ configGrid 99 ∧
      bc = total_cost bn 99 br (1/10) 1 true 1 5 100 ∧
      (∀ p ∈ configGrid 99,
        bc ≤ total_cost p.1 99 p.2 (1/10) 1 true 1 5 100) ∧
      ∃ l1 l2, configGrid 99 = l1 ++ (bn, br) :: l2 ∧
        ∀ p ∈ l1, bc < total_cost p.1 99 p.2 (1/10) 1 true 1 5 100 :=
  ⟨by norm_num,
    find_optimal_config_is_first_grid_argmin (1/10) 1 true 1 5 100 99
      (by norm_num) (le_refl 99)⟩

/-! ### Monotonicity of the uptime fraction in the repairman count -/

/-- With at least one repairman and a positive repair rate, every death
rate on states `1 .. n` is positive, so the guarded branch of the ratio
is always taken. -/
lemma deathRate_pos {r : ℕ} {mu : ℚ} (hr : 1 ≤ r) (hmu : 0 < mu) {i : ℕ}
    (hi : 1 ≤ i) : 0 < deathRate r mu i := by
  unfold deathRate
  have h1 : 1 ≤ min i r := le_min hi hr
  have h2 : (0 : ℚ) < ((min i r : ℕ) : ℚ) := by exact_mod_cast h1
  exact mul_pos h2 hmu

/-- Adding repairmen weakly increases each death rate, hence weakly
decreases each ratio appended to the running product. -/
lemma ratio_anti {n k r r' : ℕ} {lam mu : ℚ} (warm : Bool) (hr : 1 ≤ r)
    (hrr : r ≤ r') (hlam : 0 ≤ lam) (hmu : 0 < mu) {i : ℕ} (hi : 1 ≤ i)
    (hin : i - 1 ≤ n) :
    ratio n k r' lam mu warm i ≤ ratio n k r lam mu warm i := by
  unfold ratio
  have hd : 0 < deathRate r mu i := deathRate_pos hr hmu hi
  have hd' : 0 < deathRate r' mu i := deathRate_pos (le_trans hr hrr) hmu hi
  rw [if_pos hd, if_pos hd']
  have hdd : deathRate r mu i ≤ deathRate r' mu i := by
    unfold deathRate
    have : min i r ≤ min i r' := min_le_min (le_refl i) hrr
    exact mul_le_mul_of_nonneg_right (by exact_mod_cast this) (le_of_lt hmu)
  exact div_le_div_of_nonneg_left (birthRate_nonneg warm hlam hin) hd hdd

/-- Cross inequality between the weight sequences for `r` and for
`r' ≥ r` repairmen: for `i ≤ j ≤ n`,
`w_r i * w_r' j ≤ w_r' i * w_r j` — the larger repair capacity shifts
relative weight toward the low (few-failures) states. -/
lemma productTerm_cross (n k r r' : ℕ) (lam mu : ℚ) (warm : Bool)
    (hr : 1 ≤ r) (hrr : r ≤ r') (hlam : 0 ≤ lam) (hmu : 0 < mu) :
    ∀ j i, i ≤ j → j ≤ n →
      productTerm n k r lam mu warm i * productTerm n k r' lam mu warm j ≤
      productTerm n k r' lam mu warm i * productTerm n k r lam mu warm j := by
  intro j
  induction j with
  | zero =>
    intro i hi _
    have h0 : i = 0 := Nat.le_zero.mp hi
    rw [h0]
    exact le_of_eq (mul_comm _ _)
  | succ j ih =>
    intro i hi hjn
    rcases Nat.lt_or_ge i (j + 1) with hlt | hge
    · have hij : i ≤ j := Nat.lt_succ_iff.mp hlt
      have hjn' : j ≤ n := Nat.le_of_succ_le hjn
      have IH := ih i hij hjn'
      have hratio : ratio n k r' lam mu warm (j + 1) ≤
          ratio n k r lam mu warm (j + 1) :=
        ratio_anti warm hr hrr hlam hmu (Nat.succ_le_succ (Nat.zero_le j))
          (by omega)
      have hrnn : 0 ≤ ratio n k r lam mu warm (j + 1) :=
        ratio_nonneg warm hlam (by omega)
      have hrnn' : 0 ≤ ratio n k r' lam mu warm (j + 1) :=
        ratio_nonneg warm hlam (by omega)
      have hwnn : 0 ≤ productTerm n k r lam mu warm i *
          productTerm n k r' lam mu warm j :=
        mul_nonneg (productTerm_nonneg warm hlam i (le_trans hij hjn'))
          (productTerm_nonneg warm hlam j hjn')
      show productTerm n k r lam mu warm i *
          (productTerm n k r' lam mu warm j *
            ratio n k r' lam mu warm (j + 1)) ≤
        productTerm n k r' lam mu warm i *
          (productTerm n k r lam mu warm j * ratio n k r lam mu warm (j + 1))
      calc productTerm n k r lam mu warm i *
            (productTerm n k r' lam mu warm j *
              ratio n k r' lam mu warm (j + 1)) =
          productTerm n k r lam mu warm i *
            productTerm n k r' lam mu warm j *
            ratio n k r' lam mu warm (j + 1) := by ring
        _ ≤ productTerm n k r lam mu warm i *
              productTerm n k r' lam mu warm j *
              ratio n k r lam mu warm (j + 1) :=
            mul_le_mul_of_nonneg_left hratio hwnn
        _ ≤ productTerm n k r' lam mu warm i *
              productTerm n k r lam mu warm j *
              ratio n k r lam mu warm (j + 1) :=
            mul_le_mul_of_nonneg_right IH hrnn
        _ = productTerm n k r' lam mu warm i *
              (productTerm n k r lam mu warm j *
                ratio n k r lam mu warm (j + 1)) := by ring
    · have h1 : i = j + 1 := le_antisymm hi hge
      rw [h1]
      exact le_of_eq (mul_comm _ _)

/-- C6: holding `λ, μ, n, k` and the standby mode fixed, with valid
non-degenerate parameters (`1 ≤ k ≤ n`, `1 ≤ r`, `λ ≥ 0`, `μ > 0`), the
uptime fraction is monotonically non-decreasing in the repairman count:
`r ≤ r'` implies `uptime(r) ≤ uptime(r')`. -/
theorem uptime_monotone_in_repairmen (n k r r' : ℕ) (lam mu : ℚ)
    (warm : Bool) (hk : 1 ≤ k) (hkn : k ≤ n) (hr : 1 ≤ r) (hrr : r ≤ r')
    (hlam : 0 ≤ lam) (hmu : 0 < mu) :
    compute_uptime_fraction n k r lam mu warm ≤
      compute_uptime_fraction n k r' lam mu warm := by
  have hsplit : ∀ s : ℕ → ℚ,
      ∑ i ∈ Finset.range (n + 1), s i =
        (∑ i ∈ Finset.range (n - k + 1), s i) +
          ∑ i ∈ Finset.Ico (n - k + 1) (n + 1), s i := by
    intro s
    rw [Finset.range_eq_Ico]
    exact (Finset.sum_Ico_consecutive s (Nat.zero_le _) (by omega)).symm
  set A := ∑ i ∈ Finset.range (n - k + 1), productTerm n k r lam mu warm i
    with hA
  set B := ∑ i ∈ Finset.Ico (n - k + 1) (n + 1),
    productTerm n k r lam mu warm i with hB
  set A2 := ∑ i ∈ Finset.range (n - k + 1), productTerm n k r' lam mu warm i
    with hA2
  set B2 := ∑ i ∈ Finset.Ico (n - k + 1) (n + 1),
    productTerm n k r' lam mu warm i with hB2
  have hDenEq : denominator n k r lam mu warm = A + B := by
    unfold denominator
    rw [list_sum_range]
    exact hsplit _
  have hDenEq2 : denominator n k r' lam mu warm = A2 + B2 := by
    unfold denominator
    rw [list_sum_range]
    exact hsplit _
  have hABpos : 0 < A + B := hDenEq ▸ denominator_pos warm hlam
  have hABpos2 : 0 < A2 + B2 := hDenEq2 ▸ denominator_pos warm hlam
  have hupt : compute_uptime_fraction n k r lam mu warm = A / (A + B) := by
    rw [uptime_eq_sum_range warm hkn]
    unfold piProb pi_0
    rw [← Finset.mul_sum, hDenEq, one_div, inv_mul_eq_div]
  have hupt2 : compute_uptime_fraction n k r' lam mu warm =
      A2 / (A2 + B2) := by
    rw [uptime_eq_sum_range warm hkn]
    unfold piProb pi_0
    rw [← Finset.mul_sum, hDenEq2, one_div, inv_mul_eq_div]
  have key : A * B2 ≤ A2 * B := by
    rw [hA, hB, hA2, hB2, Finset.sum_mul_sum, Finset.sum_mul_sum]
    refine Finset.sum_le_sum fun i hi => Finset.sum_le_sum fun j hj => ?_
    have hi' : i < n - k + 1 := Finset.mem_range.mp hi
    obtain ⟨hj1, hj2⟩ := Finset.mem_Ico.mp hj
    exact productTerm_cross n k r r' lam mu warm hr hrr hlam hmu j i
      (by omega) (by omega)
  rw [hupt, hupt2, div_le_div_iff₀ hABpos hABpos2]
  calc A * (A2 + B2) = A * A2 + A * B2 := by ring
    _ ≤ A * A2 + A2 * B := by linarith
    _ = A2 * (A + B) := by ring

/-- Closed instance of C6 at `n = 2, k = 1, r = 1, r' = 2, λ = 1/10,
μ = 1`, warm standby. -/
theorem uptime_monotone_in_repairmen_witness :
    (1 : ℕ) ≤ 2 ∧ (0 : ℚ) < 1 ∧
    compute_uptime_fraction 2 1 1 (1/10) 1 true ≤
      compute_uptime_fraction 2 1 2 (1/10) 1 true :=
  ⟨by norm_num, by norm_num,
    uptime_monotone_in_repairmen 2 1 1 2 (1/10) 1 true (le_refl 1)
      (by norm_num) (le_refl 1) (by norm_num) (by norm_num) (by norm_num)⟩

end KOutOfN
